import Mathlib

/-!
Shallow embedding of the SemCor corpus reader
(`nltk/corpus/reader/semcor.py`): the leaf collector
`_all_xmlwords_in`, the item builder `SemcorCorpusReader._word`, the
eager materializer `SemcorCorpusReader._words`, the lazy streaming view
`SemcorWordView`, and the view selector / flattening adapter
`SemcorCorpusReader._items`, together with theorems settling the
specification claims about them.
-/

set_option maxHeartbeats 1000000

namespace Semcor

/-- Characters removed by the host language's string strip operation
(space, tab, linefeed, carriage return, vertical tab, form feed). -/
def pySpace (c : Char) : Bool :=
  c = ' ' || c = '\t' || c = '\n' || c = '\r' || c = Char.ofNat 11 || c = Char.ofNat 12

/-- `str.strip()`: remove leading and trailing whitespace. -/
def pyStrip (s : String) : String :=
  String.mk (((s.data.dropWhile pySpace).reverse.dropWhile pySpace).reverse)

/-- Digit-run part of `int(str)`: a nonempty run of decimal digits. -/
def pyIntCore (cs : List Char) : Option Int :=
  if cs ≠ [] && cs.all Char.isDigit then
    some (Int.ofNat (cs.foldl (fun a c => 10 * a + (c.toNat - 48)) 0))
  else none

/-- `int(str)`: surrounding whitespace tolerated, optional single sign,
then a nonempty run of decimal digits; anything else raises ValueError
(modelled as `none`). -/
def pyInt (s : String) : Option Int :=
  match (pyStrip s).data with
  | '+' :: rest => pyIntCore rest
  | '-' :: rest => (pyIntCore rest).map (fun n => -n)
  | cs => pyIntCore cs

/-- The `%02d` format: decimal rendering left-padded with `0` to width 2. -/
def pyFmt02d (n : Int) : String :=
  let s := toString n
  if s.length < 2 then "0" ++ s else s

/-- `str.split(sep)` on a character list: split at every occurrence of
the separator character, keeping empty runs; the empty string gives a
single empty run. -/
def pySplitChars (sep : Char) : List Char → List (List Char)
  | [] => [[]]
  | c :: rest =>
    let r := pySplitChars sep rest
    if c = sep then [] :: r
    else
      match r with
      | h :: t => (c :: h) :: t
      | [] => [[c]]

/-- `tkn.split('_')`: the multi-word join marker split from `_word`. -/
def pySplitUnderscore (s : String) : List String :=
  (pySplitChars '_' s.data).map String.mk

/-- Sense-key synthesis from `_word`:
`sense = '%s.%02d' % (lemma, int(sensenum))`, falling back on
ValueError to `lemma + '.' + sensenum`. -/
def senseKey (lem sensenum : String) : String :=
  match pyInt sensenum with
  | some n => lem ++ "." ++ pyFmt02d n
  | none => lem ++ "." ++ sensenum

/-- A parsed markup element: tag, optional text, attributes, children. -/
inductive XmlElt : Type where
  | mk (tag : String) (text : Option String) (attrs : List (String × String)) (children : List XmlElt)

def XmlElt.tag : XmlElt → String
  | .mk t _ _ _ => t

def XmlElt.text : XmlElt → Option String
  | .mk _ x _ _ => x

def XmlElt.attrs : XmlElt → List (String × String)
  | .mk _ _ a _ => a

def XmlElt.children : XmlElt → List XmlElt
  | .mk _ _ _ cs => cs

/-- `elt.get(k)`: attribute lookup, `None` when absent. -/
def XmlElt.get (e : XmlElt) (k : String) : Option String :=
  (e.attrs.find? (fun p => p.1 = k)).map (fun p => p.2)

/-- `k in elt.keys()`: attribute presence. -/
def XmlElt.hasKey (e : XmlElt) (k : String) : Bool :=
  (e.get k).isSome

/-- The tree output type (`nltk.tree.Tree`): a labelled node over ordered
children which are strings or subtrees; labels may be `None` (POS of
punctuation). -/
inductive STree : Type where
  | leaf (w : String)
  | node (label : Option String) (children : List STree)

/-- The output item shapes produced by `_word`, plus the host language's
`None` value (which the reader asserts never to produce). -/
inductive Item : Type where
  | pyNone
  | str (s : String)
  | tup (text : String) (posPart : Option (Option String)) (semPart : Option (String × Option String × Bool))
  | strs (ws : List String)
  | tree (t : STree)

/-- Errors the reader can raise. -/
inductive PyErr : Type where
  | valueError (msg : String)
  | unboundLocalError (v : String)
  | keyError (k : String)
deriving DecidableEq

/-- The `unit` parameter: `'token'`, `'word'` or `'chunk'`. -/
inductive SemcorUnit : Type where
  | token
  | word
  | chunk
deriving DecidableEq

/-- One element of a produced sequence: a bare item, or a
`SemcorSentence` (a list of items carrying the sentence number). -/
inductive Entry : Type where
  | item (itm : Item)
  | sent (num : String) (items : List Item)

/-- Leaf elements are those tagged `wf` or `punc`. -/
def isLeafTag (t : String) : Bool :=
  t = "wf" || t = "punc"

/-- Text extraction in `_word`: `tkn = xmlword.text`, substitute `""`
when absent or empty, then strip when `strip_space` is set. -/
def leafText (xmlword : XmlElt) (strip_space : Bool) : String :=
  let tkn := (xmlword.text).getD ""
  if strip_space then pyStrip tkn else tkn

/-- The item builder `SemcorCorpusReader._word`.  The `chunk` branch
reproduces the source's binding structure: `sense` is assigned only
under `sensenum is not None`, so the entity branch with an absent sense
number raises UnboundLocalError. -/
def semcorWordItem (xmlword : XmlElt) (unit : SemcorUnit) (pos_tag sem_tag strip_space : Bool) :
    Except PyErr Item :=
  let tkn := leafText xmlword strip_space
  let lem := (xmlword.get "lemma").getD tkn
  let sensenum := xmlword.get "wnsn"
  let isOOVEntity := xmlword.hasKey "rdf"
  let pos := xmlword.get "pos"
  match unit with
  | .token =>
    if !pos_tag && !sem_tag then .ok (.str tkn)
    else .ok (.tup tkn (if pos_tag then some pos else none)
                  (if sem_tag then some (lem, sensenum, isOOVEntity) else none))
  | .word => .ok (.strs (pySplitUnderscore tkn))
  | .chunk =>
    let ww := pySplitUnderscore tkn
    let bottom : List STree :=
      if pos_tag then [STree.node pos (ww.map STree.leaf)] else ww.map STree.leaf
    if sem_tag && isOOVEntity then
      match sensenum with
      | some sn => .ok (.tree (STree.node (some (senseKey lem sn)) [STree.node (some "NE") bottom]))
      | none => .error (.unboundLocalError "sense")
    else
      match sem_tag, sensenum with
      | true, some sn => .ok (.tree (STree.node (some (senseKey lem sn)) bottom))
      | _, _ =>
        if pos_tag then .ok (.tree (STree.node pos (ww.map STree.leaf)))
        else .ok (.strs ww)

mutual

/-- The leaf collector `_all_xmlwords_in`: leaf children (`wf`/`punc`)
are appended directly, any other child is traversed recursively. -/
def allXmlwordsIn : XmlElt → List XmlElt
  | .mk _ _ _ children => allXmlwordsInChildren children

def allXmlwordsInChildren : List XmlElt → List XmlElt
  | [] => []
  | c :: cs =>
    (if isLeafTag c.tag then [c] else allXmlwordsIn c) ++ allXmlwordsInChildren cs

end

mutual

/-- `xmldoc.findall('.//s')`: every descendant with tag `s`, in document
order, descending also into matched elements. -/
def findallS : XmlElt → List XmlElt
  | .mk _ _ _ children => findallSList children

def findallSList : List XmlElt → List XmlElt
  | [] => []
  | c :: cs =>
    (if c.tag = "s" then [c] else []) ++ findallS c ++ findallSList cs

end

/-- `sent.extend(itm)` at word granularity: the built item is a list of
sub-words and each sub-word is appended as one string item.  (At word
granularity the builder always returns a sub-word list, so the catch-all
arm is never exercised there.) -/
def itemAsList : Item → List Item
  | .strs ws => ws.map Item.str
  | itm => [itm]

/-- `elt.attrib[k]`: raises KeyError when the attribute is absent. -/
def XmlElt.attribGet (e : XmlElt) (k : String) : Except PyErr String :=
  match e.get k with
  | some v => .ok v
  | none => .error (.keyError k)

/-- The per-sentence loop of `_words`: build one item per collected
leaf, splicing sub-words at word granularity and appending the single
item otherwise; the first error raised aborts the whole build. -/
def buildSentItems (ws : List XmlElt) (unit : SemcorUnit) (pos_tag sem_tag strip_space : Bool) :
    Except PyErr (List Item) :=
  match ws with
  | [] => .ok []
  | w :: rest =>
    match semcorWordItem w unit pos_tag sem_tag strip_space with
    | .error e => .error e
    | .ok itm =>
      match buildSentItems rest unit pos_tag sem_tag strip_space with
      | .error e => .error e
      | .ok tail => .ok ((if unit = .word then itemAsList itm else [itm]) ++ tail)

/-- The per-sentence grouping step of `_words`: wrap the sentence's
items in a `SemcorSentence` carrying `attrib['snum']` when bracketing,
else leave them as flat items. -/
def sentEntries (bracket_sent : Bool) (s : XmlElt) (sent : List Item) : Except PyErr (List Entry) :=
  match bracket_sent with
  | true =>
    match s.attribGet "snum" with
    | .error e => .error e
    | .ok num => .ok [Entry.sent num sent]
  | false => .ok (sent.map Entry.item)

/-- The sentence loop of `_words`: wrap each sentence's items in a
`SemcorSentence` carrying `attrib['snum']` when bracketing, else splice
them into the flat result. -/
def semcorWordsGo (sents : List XmlElt) (unit : SemcorUnit)
    (bracket_sent pos_tag sem_tag strip_space : Bool) : Except PyErr (List Entry) :=
  match sents with
  | [] => .ok []
  | s :: rest =>
    match buildSentItems (allXmlwordsIn s) unit pos_tag sem_tag strip_space with
    | .error e => .error e
    | .ok sent =>
      match sentEntries bracket_sent s sent with
      | .error e => .error e
      | .ok entries =>
        match semcorWordsGo rest unit bracket_sent pos_tag sem_tag strip_space with
        | .error e => .error e
        | .ok tail => .ok (entries ++ tail)

/-- The eager materializer `SemcorCorpusReader._words` on an already
parsed document.  (The source's closing `assert None not in result` is
not modelled as a check; the no-`None` property is proved below.) -/
def semcorWords (doc : XmlElt) (unit : SemcorUnit)
    (bracket_sent pos_tag sem_tag strip_space : Bool) : Except PyErr (List Entry) :=
  semcorWordsGo (findallS doc) unit bracket_sent pos_tag sem_tag strip_space

mutual

/-- Modelled from the spec: the structural streaming parser
(`XMLCorpusView`, not among the sources) with the bracketed pattern
yields every sentence element in document order, one per pull, without
searching inside a matched element for further matches. -/
def streamSentsElt : XmlElt → List XmlElt
  | .mk _ _ _ children => streamSentsList children

def streamSentsList : List XmlElt → List XmlElt
  | [] => []
  | c :: cs =>
    (if c.tag = "s" then [c] else streamSentsElt c) ++ streamSentsList cs

end

mutual

/-- Modelled from the spec: the structural streaming parser with the
unbracketed pattern yields, in document order, every leaf element
(`wf`/`punc`) that is a direct child of a sentence element, consuming
each matched leaf without descending into it. -/
def streamWordsElt : XmlElt → List XmlElt
  | .mk tag _ _ children => streamWordsList tag children

def streamWordsList (parentTag : String) : List XmlElt → List XmlElt
  | [] => []
  | c :: cs =>
    (if parentTag = "s" && isLeafTag c.tag then [c] else streamWordsElt c) ++
      streamWordsList parentTag cs

end

/-- The element stream for the bracketed pattern, over a whole document
(the root itself is never a match). -/
def streamSents (doc : XmlElt) : List XmlElt :=
  streamSentsList doc.children

/-- The element stream for the unbracketed pattern, over a whole
document (the root itself is never a match). -/
def streamWords (doc : XmlElt) : List XmlElt :=
  doc.children.flatMap streamWordsElt

/-- The child loop of `SemcorWordView.handle_sent`: leaf children are
built into items (spliced at word granularity), any other child tag
raises `ValueError('Unexpected element ...')` on the spot. -/
def handleSentChildren (children : List XmlElt) (unit : SemcorUnit)
    (pos_tag sem_tag strip_space : Bool) : Except PyErr (List Item) :=
  match children with
  | [] => .ok []
  | c :: cs =>
    if isLeafTag c.tag then
      match semcorWordItem c unit pos_tag sem_tag strip_space with
      | .error e => .error e
      | .ok itm =>
        match handleSentChildren cs unit pos_tag sem_tag strip_space with
        | .error e => .error e
        | .ok tail => .ok ((if unit = .word then itemAsList itm else [itm]) ++ tail)
    else .error (.valueError ("Unexpected element " ++ c.tag))

/-- `SemcorWordView.handle_sent`: build the item list from the direct
children, then wrap it with `elt.attrib['snum']`. -/
def handleSent (elt : XmlElt) (unit : SemcorUnit)
    (pos_tag sem_tag strip_space : Bool) : Except PyErr Entry :=
  match handleSentChildren elt.children unit pos_tag sem_tag strip_space with
  | .error e => .error e
  | .ok sent =>
    match elt.attribGet "snum" with
    | .error e => .error e
    | .ok num => .ok (Entry.sent num sent)

/-- Pull every element of the stream through a handler, stopping at the
first raised error. -/
def pullAll {α β : Type} (f : α → Except PyErr β) : List α → Except PyErr (List β)
  | [] => .ok []
  | x :: xs =>
    match f x with
    | .error e => .error e
    | .ok y =>
      match pullAll f xs with
      | .error e => .error e
      | .ok ys => .ok (y :: ys)

/-- The full output sequence of a `SemcorWordView` over one document:
`handle_sent` per streamed sentence element when bracketing,
`handle_word` (i.e. `_word`) per streamed leaf otherwise. -/
def semcorViewEntries (doc : XmlElt) (unit : SemcorUnit)
    (bracket_sent pos_tag sem_tag strip_space : Bool) : Except PyErr (List Entry) :=
  if bracket_sent then
    pullAll (fun s => handleSent s unit pos_tag sem_tag strip_space) (streamSents doc)
  else
    pullAll (fun w =>
      match semcorWordItem w unit pos_tag sem_tag strip_space with
      | .error e => .error e
      | .ok itm => .ok (Entry.item itm)) (streamWords doc)

/-- Modelled from the spec: `LazyConcatenation` (not among the sources)
is a general-purpose lazy concatenation of a sequence of sequences; in
the host language a string element is a sequence of its one-character
strings, and a `SemcorSentence` element is the sequence of its items.
Other element shapes never reach the adapter, which `_items` applies
only at word granularity without bracketing. -/
def pyIterEntry : Entry → List Entry
  | .item (.str s) => s.data.map (fun c => .item (.str (String.mk [c])))
  | .item (.strs ws) => ws.map (fun w => .item (.str w))
  | .sent _ its => its.map .item
  | e => [e]

/-- The flattening adapter: concatenate the iterations of the produced
elements. -/
def lazyConcat (entries : List Entry) : List Entry :=
  entries.flatMap pyIterEntry

/-- The per-document producer built by `SemcorCorpusReader._items`:
the lazy view or the eager materializer per the reader's mode flag,
wrapped in the flattening adapter exactly when `unit = word` and the
output is not bracketed. -/
def semcorItemsDoc (doc : XmlElt) (lazyMode : Bool) (unit : SemcorUnit)
    (bracket_sent pos_tag sem_tag strip_space : Bool) : Except PyErr (List Entry) :=
  let producer :=
    if lazyMode then semcorViewEntries doc unit bracket_sent pos_tag sem_tag strip_space
    else semcorWords doc unit bracket_sent pos_tag sem_tag strip_space
  if unit = .word && !bracket_sent then
    match producer with
    | .error e => .error e
    | .ok entries => .ok (lazyConcat entries)
  else producer

/-! ## Concrete document fixtures -/

/-- A leaf whose surface text is the multi-word chunk `New_York`. -/
def wfNY : XmlElt := .mk "wf" (some "New_York") [] []

/-- A sentence whose sole child is the `New_York` leaf. -/
def sNY : XmlElt := .mk "s" none [("snum", "1")] [wfNY]

/-- A document with one flat sentence over `New_York`. -/
def docNY : XmlElt := .mk "contextfile" none [] [sNY]

/-- A leaf with lemma `dog` and numeric sense number `7`. -/
def dogElt : XmlElt := .mk "wf" (some "dog") [("lemma", "dog"), ("wnsn", "7"), ("pos", "NN")] []

/-- A leaf with lemma `run` and compound sense number `2;1`. -/
def runElt : XmlElt := .mk "wf" (some "run") [("lemma", "run"), ("wnsn", "2;1"), ("pos", "VB")] []

/-- An out-of-vocabulary entity leaf with a non-numeric sense string. -/
def neElt : XmlElt :=
  .mk "wf" (some "New_York") [("lemma", "New_York"), ("rdf", "place"), ("wnsn", "1;1"), ("pos", "NNP")] []

/-- An out-of-vocabulary entity leaf with no sense number at all. -/
def oovNoSenseElt : XmlElt := .mk "wf" (some "Martin") [("lemma", "Martin"), ("rdf", "person"), ("pos", "NNP")] []

/-- Another out-of-vocabulary entity leaf with no sense number. -/
def brooksElt : XmlElt :=
  .mk "wf" (some "Brooks_Brothers") [("lemma", "Brooks_Brothers"), ("rdf", "group"), ("pos", "NNP")] []

/-- A non-leaf child sitting directly inside a sentence. -/
def neChild : XmlElt := .mk "ne" none [] [.mk "wf" (some "Hello") [] []]

/-- A document whose sentence has a nested (non-leaf) child. -/
def docNested : XmlElt := .mk "contextfile" none [] [.mk "s" none [("snum", "2")] [neChild]]

/-- A sentence whose first child is an entity leaf without a sense
number and whose second child is not a leaf. -/
def cexSent : XmlElt :=
  .mk "s" none [("snum", "3")] [.mk "wf" (some "Acme") [("rdf", "group")] [], neChild]

/-- An already-flat sentence: every child is a leaf. -/
def flatSent : XmlElt :=
  .mk "s" none [("snum", "4")] [.mk "wf" (some "Hi") [] [], .mk "punc" (some ".") [] []]

/-! ## Helper lemmas -/

/-- String append is associative. -/
theorem strAppendAssoc (a b c : String) : a ++ b ++ c = a ++ (b ++ c) := by
  cases a with | mk la =>
  cases b with | mk lb =>
  cases c with | mk lc =>
  show String.mk (la ++ lb ++ lc) = String.mk (la ++ (lb ++ lc))
  rw [List.append_assoc]

/-- The leaf collector on a child list is the flat concatenation of the
per-child contributions. -/
theorem allXmlwordsInChildren_eq (cs : List XmlElt) :
    allXmlwordsInChildren cs =
      cs.flatMap (fun c => if isLeafTag c.tag then [c] else allXmlwordsIn c) := by
  induction cs with
  | nil => simp [allXmlwordsInChildren]
  | cons c cs ih => simp [allXmlwordsInChildren, ih]

/-- The leaf collector on an element walks its child list. -/
theorem allXmlwordsIn_eq (e : XmlElt) :
    allXmlwordsIn e = allXmlwordsInChildren e.children := by
  cases e
  simp [allXmlwordsIn, XmlElt.children]

/-! ## Claim theorems -/

/-- C3.  Sense-key synthesis: with a sense number present, the key is
the lemma, a dot and the `%02d` rendering of the parsed integer — in
particular a zero-padded two-digit form for single-digit senses — and
when the sense string does not parse as an integer the key is the lemma,
a dot and the raw sense string verbatim.  Lemma `dog` with sense `7`
yields the tree label `dog.07` and lemma `run` with sense `2;1` yields
`run.2;1`. -/
theorem sense_key_synthesis :
    (semcorWordItem dogElt .chunk false true true =
      .ok (.tree (.node (some "dog.07") [.leaf "dog"]))) ∧
    (semcorWordItem runElt .chunk false true true =
      .ok (.tree (.node (some "run.2;1") [.leaf "run"]))) ∧
    (∀ lem s n, pyInt s = some n → senseKey lem s = lem ++ "." ++ pyFmt02d n) ∧
    (∀ lem s n, pyInt s = some n → 0 ≤ n → n ≤ 9 →
      senseKey lem s = lem ++ ".0" ++ toString n) ∧
    (∀ lem s, pyInt s = none → senseKey lem s = lem ++ "." ++ s) := by
  refine ⟨?_, ?_, ?_, ?_, ?_⟩
  · simp only [dogElt, semcorWordItem, leafText, pyStrip, pySpace, XmlElt.text, XmlElt.get,
      XmlElt.attrs, XmlElt.hasKey, senseKey, pyInt, pyIntCore, pyFmt02d,
      pySplitUnderscore, pySplitChars]
    rfl
  · simp [runElt, semcorWordItem, leafText, pyStrip, pySpace, XmlElt.text, XmlElt.get,
      XmlElt.attrs, XmlElt.hasKey, senseKey, pyInt, pyIntCore, pyFmt02d,
      pySplitUnderscore, pySplitChars]
  · intro lem s n h
    simp [senseKey, h]
  · intro lem s n h h0 h9
    simp only [senseKey, h]
    rw [strAppendAssoc, strAppendAssoc]
    congr 1
    interval_cases n <;> rfl
  · intro lem s h
    simp [senseKey, h]

/-- Witness for C3: the padded branch at lemma `dog`, sense `7`. -/
theorem sense_key_synthesis_witness :
    senseKey "dog" "7" = "dog" ++ ".0" ++ toString (7 : Int) := by
  exact sense_key_synthesis.2.2.2.1 "dog" "7" 7 (by decide) (by decide) (by decide)

/-- C10.  A leaf whose `rdf` attribute is set but whose `wnsn` attribute
is absent makes the item builder fail at chunk granularity with semantic
tags: the local `sense` is only bound under a present sense number, yet
the entity branch reads it, so evaluation raises UnboundLocalError and
produces no item. -/
theorem oov_unbound_sense_failure :
    semcorWordItem brooksElt .chunk true true true = .error (.unboundLocalError "sense") := by
  simp [brooksElt, semcorWordItem, leafText, pyStrip, pySpace, XmlElt.text, XmlElt.get,
    XmlElt.attrs, XmlElt.hasKey]

/-- Counterexample for C4 as stated: for an out-of-vocabulary entity
leaf whose sense attribute is absent the builder raises instead of
returning the NE-wrapped tree, so the claim's universal statement over
all entity leaves fails. -/
theorem oov_entity_missing_sense_cex :
    semcorWordItem oovNoSenseElt .chunk true true true = .error (.unboundLocalError "sense") := by
  simp [oovNoSenseElt, semcorWordItem, leafText, pyStrip, pySpace, XmlElt.text, XmlElt.get,
    XmlElt.attrs, XmlElt.hasKey]

/-- C4 (amended: a sense attribute must be present).  For every leaf at
chunk granularity with semantic tags requested, the entity flag set and
a sense string present, the builder returns a tree labelled with the
synthesized sense key wrapping an `NE` node wrapping `bottom` (the
POS-labelled node over the sub-words when POS was requested, else the
bare sub-words); a non-numeric sense string still yields this structure,
with the key synthesized from the lemma and the raw sense string. -/
theorem oov_entity_wrapping (w : XmlElt) (pos_tag strip_space : Bool) (sn : String)
    (hOOV : w.hasKey "rdf" = true) (hsn : w.get "wnsn" = some sn) :
    semcorWordItem w .chunk pos_tag true strip_space =
      .ok (.tree (.node (some (senseKey ((w.get "lemma").getD (leafText w strip_space)) sn))
        [.node (some "NE")
          (if pos_tag then
            [.node (w.get "pos") ((pySplitUnderscore (leafText w strip_space)).map .leaf)]
          else (pySplitUnderscore (leafText w strip_space)).map .leaf)])) := by
  simp [semcorWordItem, hOOV, hsn]

/-- Witness for C4: the spec's entity-wrapping scenario, a `New_York`
entity with POS `NNP` and the non-numeric sense string `1;1`. -/
theorem oov_entity_wrapping_witness :
    semcorWordItem neElt .chunk true true true =
      .ok (.tree (.node (some "New_York.1;1")
        [.node (some "NE") [.node (some "NNP") [.leaf "New", .leaf "York"]]])) := by
  have h := oov_entity_wrapping neElt true true "1;1" (by rfl) (by rfl)
  simpa [neElt, leafText, pyStrip, pySpace, XmlElt.text, XmlElt.get, XmlElt.attrs,
    senseKey, pyInt, pyIntCore, pyStrip, pySplitUnderscore, pySplitChars] using h

/-- C5.  The leaf collector returns exactly the pre-order sequence of
leaf descendants: each leaf child is kept without descent, each other
child is traversed recursively; an element without children yields the
empty sequence; an already-flat element returns its children unchanged. -/
theorem leaf_collector_preorder :
    (∀ e : XmlElt, allXmlwordsIn e =
      e.children.flatMap (fun c => if isLeafTag c.tag then [c] else allXmlwordsIn c)) ∧
    (∀ e : XmlElt, e.children = [] → allXmlwordsIn e = []) ∧
    (∀ e : XmlElt, (∀ c ∈ e.children, isLeafTag c.tag = true) → allXmlwordsIn e = e.children) := by
  have key : ∀ e : XmlElt, allXmlwordsIn e =
      e.children.flatMap (fun c => if isLeafTag c.tag then [c] else allXmlwordsIn c) := by
    intro e
    rw [allXmlwordsIn_eq, allXmlwordsInChildren_eq]
  refine ⟨key, ?_, ?_⟩
  · intro e h
    rw [key, h]
    simp
  · intro e h
    rw [key]
    have : ∀ cs : List XmlElt, (∀ c ∈ cs, isLeafTag c.tag = true) →
        cs.flatMap (fun c => if isLeafTag c.tag then [c] else allXmlwordsIn c) = cs := by
      intro cs hcs
      induction cs with
      | nil => simp
      | cons c cs ih =>
        have hc := hcs c (by simp)
        simp [hc, ih (fun x hx => hcs x (by simp [hx]))]
    exact this e.children h

/-- Witness for C5: collecting the leaves of an already-flat sentence
returns its direct children unchanged. -/
theorem leaf_collector_preorder_witness :
    allXmlwordsIn flatSent = flatSent.children := by
  exact leaf_collector_preorder.2.2 flatSent (by decide)

/-- C6.  At chunk granularity with neither POS nor semantic tags
requested, the builder returns the bare list of sub-word strings (the
surface text split on the underscore join marker), never a tree; a chunk
with text `New_York` yields the bare list of `New` and `York`. -/
theorem chunk_untagged_bare_list :
    (∀ (w : XmlElt) (strip_space : Bool),
      semcorWordItem w .chunk false false strip_space =
        .ok (.strs (pySplitUnderscore (leafText w strip_space)))) ∧
    semcorWordItem wfNY .chunk false false true = .ok (.strs ["New", "York"]) := by
  constructor
  · intro w strip_space
    simp [semcorWordItem]
  · simp [wfNY, semcorWordItem, leafText, pyStrip, pySpace, XmlElt.text, XmlElt.get,
      XmlElt.attrs, XmlElt.hasKey, pySplitUnderscore, pySplitChars]

/-- C7.  At token granularity with neither POS nor semantic tags
requested, the builder always succeeds and returns the plain surface
text: the empty string when the text is absent, stripped of surrounding
whitespace exactly when `strip_space` is set and unchanged otherwise. -/
theorem token_untagged_text :
    (∀ (w : XmlElt) (strip_space : Bool),
      semcorWordItem w .token false false strip_space =
        .ok (.str (if strip_space then pyStrip (w.text.getD "") else w.text.getD ""))) ∧
    (∀ (tag : String) (a : List (String × String)) (ch : List XmlElt) (strip_space : Bool),
      semcorWordItem (.mk tag none a ch) .token false false strip_space = .ok (.str "")) ∧
    semcorWordItem (.mk "wf" (some " hi ") [] []) .token false false true = .ok (.str "hi") ∧
    semcorWordItem (.mk "wf" (some " hi ") [] []) .token false false false = .ok (.str " hi ") := by
  refine ⟨?_, ?_, ?_, ?_⟩
  · intro w strip_space
    simp [semcorWordItem, leafText]
  · intro tag a ch strip_space
    cases strip_space <;>
      simp [semcorWordItem, leafText, XmlElt.text, pyStrip, pySpace]
  · simp [semcorWordItem, leafText, XmlElt.text, pyStrip, pySpace]
  · simp [semcorWordItem, leafText, XmlElt.text]

/-- The only error the item builder can raise is the unbound `sense`
variable. -/
theorem wordItemErrorKind (w : XmlElt) (u : SemcorUnit) (p m st : Bool) (e : PyErr)
    (h : semcorWordItem w u p m st = .error e) : e = .unboundLocalError "sense" := by
  cases u
  case token =>
    simp only [semcorWordItem] at h
    split at h <;> simp_all
  case word => simp only [semcorWordItem] at h; simp_all
  case chunk =>
    simp only [semcorWordItem] at h
    split at h
    · split at h <;> simp_all
    · split at h
      · simp_all
      · split at h <;> simp_all

/-- A `ValueError` from the `handle_sent` child loop implies a non-leaf
child. -/
theorem handleSentChildren_valueError (cs : List XmlElt) (u : SemcorUnit) (p m st : Bool)
    (msg : String) (h : handleSentChildren cs u p m st = .error (.valueError msg)) :
    ∃ c ∈ cs, isLeafTag c.tag = false := by
  induction cs with
  | nil => simp [handleSentChildren] at h
  | cons c cs ih =>
    simp only [handleSentChildren] at h
    by_cases hc : isLeafTag c.tag
    · rw [if_pos hc] at h
      rcases hw : semcorWordItem c u p m st with e | itm
      · rw [hw] at h
        have hk := wordItemErrorKind c u p m st e hw
        simp [hk] at h
      · rw [hw] at h
        rcases ht : handleSentChildren cs u p m st with e | tail
        · rw [ht] at h
          simp only [Except.error.injEq] at h
          subst h
          obtain ⟨d, hd, hdl⟩ := ih ht
          exact ⟨d, by simp [hd], hdl⟩
        · rw [ht] at h
          simp at h
    · exact ⟨c, by simp, by simpa using hc⟩

/-- When every leaf child before the first non-leaf child builds
successfully, the `handle_sent` child loop raises the structural
`ValueError` naming the first offending tag. -/
theorem handleSentChildren_firstBad (pre : List XmlElt) (bad : XmlElt) (rest : List XmlElt)
    (u : SemcorUnit) (p m st : Bool)
    (hpre : ∀ c ∈ pre, isLeafTag c.tag = true)
    (hbad : isLeafTag bad.tag = false)
    (hok : ∀ c ∈ pre, ∃ itm, semcorWordItem c u p m st = .ok itm) :
    handleSentChildren (pre ++ bad :: rest) u p m st =
      .error (.valueError ("Unexpected element " ++ bad.tag)) := by
  induction pre with
  | nil => simp [handleSentChildren, hbad]
  | cons c pre ih =>
    have hc := hpre c (by simp)
    obtain ⟨itm, hitm⟩ := hok c (by simp)
    simp only [List.cons_append, handleSentChildren, hc, if_pos, hitm]
    rw [show pre.append (bad :: rest) = pre ++ bad :: rest from rfl,
      ih (fun x hx => hpre x (by simp [hx])) (fun x hx => hok x (by simp [hx]))]

/-- C8 (amended: leaf children preceding the first offending child must
themselves build successfully).  In lazy bracketed mode: a structural
`ValueError` from building a sentence implies some direct child has a
tag other than `wf`/`punc`; conversely, when such a child exists and
every leaf child before the first one builds an item without error, the
build fails with the structural `ValueError` for that first offending
tag (and hence yields no sentence container). -/
theorem handle_sent_structural_error (elt : XmlElt) (u : SemcorUnit) (p m st : Bool) :
    (∀ msg, handleSent elt u p m st = .error (.valueError msg) →
      ∃ c ∈ elt.children, isLeafTag c.tag = false) ∧
    (∀ pre bad rest, elt.children = pre ++ bad :: rest →
      (∀ c ∈ pre, isLeafTag c.tag = true) →
      isLeafTag bad.tag = false →
      (∀ c ∈ pre, ∃ itm, semcorWordItem c u p m st = .ok itm) →
      handleSent elt u p m st = .error (.valueError ("Unexpected element " ++ bad.tag))) := by
  constructor
  · intro msg h
    simp only [handleSent] at h
    rcases hcs : handleSentChildren elt.children u p m st with e | sent
    · rw [hcs] at h
      simp only [Except.error.injEq] at h
      subst h
      exact handleSentChildren_valueError _ _ _ _ _ _ hcs
    · rw [hcs] at h
      rcases ha : elt.attribGet "snum" with e | num
      · rw [ha] at h
        simp only [XmlElt.attribGet] at ha
        rcases hg : elt.get "snum" with _ | v <;> rw [hg] at ha <;> simp_all
      · rw [ha] at h
        simp at h
  · intro pre bad rest hsplit hpre hbad hok
    simp only [handleSent, hsplit]
    rw [handleSentChildren_firstBad pre bad rest u p m st hpre hbad hok]

/-- Witness for C8: a sentence whose only child is a nested `ne` element
fails with the structural error. -/
theorem handle_sent_structural_error_witness :
    handleSent (XmlElt.mk "s" none [("snum", "2")] [neChild]) .chunk false false true =
      .error (.valueError "Unexpected element ne") := by
  have h := (handle_sent_structural_error
    (XmlElt.mk "s" none [("snum", "2")] [neChild]) .chunk false false true).2
    [] neChild [] (by rfl) (by simp) (by rfl) (by simp)
  simpa [neChild, XmlElt.tag] using h

/-- Counterexample for C8 as stated: a sentence containing a non-leaf
child need not raise the structural error — when an earlier entity leaf
without a sense number is built first, the UnboundLocalError from the
item builder surfaces instead, so "structural error iff bad child"
fails right-to-left. -/
theorem handle_sent_error_kind_cex :
    cexSent.children.any (fun c => !isLeafTag c.tag) = true ∧
    handleSent cexSent .chunk false true true = .error (.unboundLocalError "sense") := by
  constructor
  · decide
  · simp [cexSent, neChild, handleSent, handleSentChildren, semcorWordItem, leafText,
      pyStrip, pySpace, isLeafTag, XmlElt.tag, XmlElt.children, XmlElt.text, XmlElt.get,
      XmlElt.attrs, XmlElt.hasKey, XmlElt.attribGet]

/-! ## The no-None / exactly-one-item invariant -/

/-- Whether an item is the host language's `None` value. -/
def itemIsNone : Item → Bool
  | .pyNone => true
  | _ => false

/-- No `None` inside a produced entry (the bare item, or any member of a
sentence container). -/
def entryNoNone : Entry → Bool
  | .item i => !itemIsNone i
  | .sent _ its => its.all (fun i => !itemIsNone i)

/-- Number of items carried by one entry. -/
def entryCount : Entry → Nat
  | .item _ => 1
  | .sent _ its => its.length

/-- Total number of items carried by a produced sequence. -/
def entryItemCount (es : List Entry) : Nat :=
  (es.map entryCount).sum

/-- Size of the sub-word group one leaf contributes at word
granularity. -/
def wordSize (w : XmlElt) (st : Bool) : Nat :=
  (pySplitUnderscore (leafText w st)).length

/-- Number of leaves collected across all sentences of a document. -/
def leafCount (doc : XmlElt) : Nat :=
  ((findallS doc).map (fun s => (allXmlwordsIn s).length)).sum

/-- Total number of sub-words across all leaves of a document. -/
def wordTotal (doc : XmlElt) (st : Bool) : Nat :=
  ((findallS doc).map (fun s => ((allXmlwordsIn s).map (fun w => wordSize w st)).sum)).sum

/-- A successful item build never returns `None`. -/
theorem wordItem_ok_not_none (w : XmlElt) (u : SemcorUnit) (p m st : Bool) (itm : Item)
    (h : semcorWordItem w u p m st = .ok itm) : itemIsNone itm = false := by
  cases u
  case token =>
    simp only [semcorWordItem] at h
    split at h <;> (simp only [Except.ok.injEq] at h; subst h; rfl)
  case word =>
    simp only [semcorWordItem, Except.ok.injEq] at h
    subst h
    rfl
  case chunk =>
    simp only [semcorWordItem] at h
    split at h
    · split at h
      · simp only [Except.ok.injEq] at h
        subst h
        rfl
      · simp at h
    · split at h
      · simp only [Except.ok.injEq] at h
        subst h
        rfl
      · split at h <;> (simp only [Except.ok.injEq] at h; subst h; rfl)

/-- At word granularity the builder returns exactly the sub-word list of
the leaf's text. -/
theorem wordItem_word_shape (w : XmlElt) (p m st : Bool) :
    semcorWordItem w .word p m st = .ok (.strs (pySplitUnderscore (leafText w st))) := by
  simp [semcorWordItem]

/-- A successful per-sentence build contains no `None` and carries
exactly one item per leaf (or the leaf's sub-word group at word
granularity). -/
theorem buildSentItems_ok (ws : List XmlElt) (u : SemcorUnit) (p m st : Bool)
    (its : List Item) (h : buildSentItems ws u p m st = .ok its) :
    (∀ i ∈ its, itemIsNone i = false) ∧
    (u ≠ .word → its.length = ws.length) ∧
    (u = .word → its.length = (ws.map (fun w => wordSize w st)).sum) := by
  induction ws generalizing its with
  | nil =>
    simp only [buildSentItems] at h
    simp only [Except.ok.injEq] at h
    subst h
    simp
  | cons w ws ih =>
    simp only [buildSentItems] at h
    rcases hw : semcorWordItem w u p m st with e | itm <;> rw [hw] at h
    · simp at h
    · rcases ht : buildSentItems ws u p m st with e | tail <;> rw [ht] at h
      · simp at h
      · simp only [Except.ok.injEq] at h
        subst h
        obtain ⟨ihn, ihl, ihw⟩ := ih tail ht
        refine ⟨?_, ?_, ?_⟩
        · intro i hi
          rcases List.mem_append.mp hi with hi | hi
          · by_cases hu : u = .word
            · subst hu
              rw [wordItem_word_shape] at hw
              simp only [Except.ok.injEq] at hw
              subst hw
              simp only [if_pos rfl, itemAsList] at hi
              obtain ⟨x, _, hx⟩ := List.mem_map.mp hi
              subst hx
              rfl
            · rw [if_neg hu] at hi
              simp only [List.mem_singleton] at hi
              subst hi
              exact wordItem_ok_not_none w u p m st i hw
          · exact ihn i hi
        · intro hu
          rw [if_neg hu]
          simp [ihl hu]
        · intro hu
          subst hu
          rw [wordItem_word_shape] at hw
          simp only [Except.ok.injEq] at hw
          subst hw
          simp [itemAsList, ihw rfl, wordSize]

/-- Sequence-level item count distributes over append. -/
theorem entryItemCount_append (a b : List Entry) :
    entryItemCount (a ++ b) = entryItemCount a + entryItemCount b := by
  simp [entryItemCount]

/-- Flat items count one each. -/
theorem entryItemCount_map_item (its : List Item) :
    entryItemCount (its.map Entry.item) = its.length := by
  induction its with
  | nil => rfl
  | cons i its ih =>
    simp only [List.map_cons, entryItemCount, List.sum_cons, List.length_cons, entryCount] at *
    omega

/-- A successful per-sentence grouping carries exactly the sentence's
items and no `None` (given the items themselves are not `None`). -/
theorem sentEntries_ok (b : Bool) (s : XmlElt) (sent : List Item) (entries : List Entry)
    (h : sentEntries b s sent = .ok entries) :
    entryItemCount entries = sent.length ∧
    ((∀ i ∈ sent, itemIsNone i = false) → ∀ e ∈ entries, entryNoNone e = true) := by
  cases b
  case false =>
    simp only [sentEntries, Except.ok.injEq] at h
    subst h
    refine ⟨entryItemCount_map_item sent, ?_⟩
    intro hn e he
    obtain ⟨i, hi, hie⟩ := List.mem_map.mp he
    subst hie
    simp [entryNoNone, hn i hi]
  case true =>
    simp only [sentEntries] at h
    rcases ha : s.attribGet "snum" with e | num <;> rw [ha] at h
    · simp at h
    · simp only [Except.ok.injEq] at h
      subst h
      refine ⟨by simp [entryItemCount, entryCount], ?_⟩
      intro hn e he
      simp only [List.mem_singleton] at he
      subst he
      simp only [entryNoNone, List.all_eq_true]
      intro i hi
      simp [hn i hi]

/-- The sentence loop of the eager materializer produces no `None` and
carries exactly one item per collected leaf (or the leaf's sub-word
group at word granularity). -/
theorem semcorWordsGo_ok (sents : List XmlElt) (u : SemcorUnit) (b p m st : Bool)
    (res : List Entry) (h : semcorWordsGo sents u b p m st = .ok res) :
    (∀ e ∈ res, entryNoNone e = true) ∧
    (u ≠ .word → entryItemCount res = (sents.map (fun s => (allXmlwordsIn s).length)).sum) ∧
    (u = .word → entryItemCount res =
      (sents.map (fun s => ((allXmlwordsIn s).map (fun w => wordSize w st)).sum)).sum) := by
  induction sents generalizing res with
  | nil =>
    simp only [semcorWordsGo] at h
    simp only [Except.ok.injEq] at h
    subst h
    simp [entryItemCount]
  | cons s sents ih =>
    simp only [semcorWordsGo] at h
    rcases hb : buildSentItems (allXmlwordsIn s) u p m st with e | sent <;> rw [hb] at h <;>
      dsimp only at h
    · simp at h
    · rcases he : sentEntries b s sent with e | entries <;> rw [he] at h <;> dsimp only at h
      · simp at h
      · rcases ht : semcorWordsGo sents u b p m st with e | tail <;> rw [ht] at h <;>
          dsimp only at h
        · simp at h
        · simp only [Except.ok.injEq] at h
          subst h
          obtain ⟨hbn, hbl, hbw⟩ := buildSentItems_ok _ u p m st sent hb
          obtain ⟨hec, hen⟩ := sentEntries_ok b s sent entries he
          obtain ⟨ihn, ihl, ihw⟩ := ih tail ht
          refine ⟨?_, ?_, ?_⟩
          · intro e hee
            rcases List.mem_append.mp hee with hee | hee
            · exact hen hbn e hee
            · exact ihn e hee
          · intro hu
            rw [entryItemCount_append, hec, hbl hu, ihl hu, List.map_cons, List.sum_cons]
          · intro hu
            rw [entryItemCount_append, hec, hbw hu, ihw hu, List.map_cons, List.sum_cons]

/-- C9.  A successful eager materialization never contains the host
language's `None` value (neither as an entry nor inside a sentence
container), and carries exactly one item per collected leaf at token or
chunk granularity, and exactly the leaf's flattened sub-word group per
leaf at word granularity. -/
theorem no_none_exactly_one (doc : XmlElt) (u : SemcorUnit) (b p m st : Bool)
    (res : List Entry) (h : semcorWords doc u b p m st = .ok res) :
    (∀ e ∈ res, entryNoNone e = true) ∧
    (u ≠ .word → entryItemCount res = leafCount doc) ∧
    (u = .word → entryItemCount res = wordTotal doc st) := by
  exact semcorWordsGo_ok (findallS doc) u b p m st res h

/-- Witness for C9: the invariant at the `New_York` document, chunk
granularity, unbracketed. -/
theorem no_none_exactly_one_witness :
    (∀ e ∈ [Entry.item (Item.strs ["New", "York"])], entryNoNone e = true) ∧
    entryItemCount [Entry.item (Item.strs ["New", "York"])] = leafCount docNY := by
  have hcomp : semcorWords docNY .chunk false false false true =
      .ok [Entry.item (Item.strs ["New", "York"])] := by
    simp [semcorWords, semcorWordsGo, sentEntries, buildSentItems, allXmlwordsIn,
      allXmlwordsInChildren, findallS, findallSList, docNY, sNY, wfNY, semcorWordItem, leafText,
      pyStrip, pySpace, isLeafTag, XmlElt.tag, XmlElt.children, XmlElt.text, XmlElt.get,
      XmlElt.attrs, XmlElt.hasKey, itemAsList, pySplitUnderscore, pySplitChars]
  have h := no_none_exactly_one docNY .chunk false false false true
    [Entry.item (Item.strs ["New", "York"])] hcomp
  exact ⟨h.1, h.2.1 (by decide)⟩

/-- C2, evaluated at the failing input.  For `unit = word` without
bracketing, `_items` wraps both producers in the flattening adapter.  In
lazy mode the view yields one sub-word list per leaf and the adapter
flattens it into the word sequence `New`, `York` as the spec demands.
In eager mode `_words` has already spliced the sub-words into a flat
list of word strings, so the adapter flattens a second time and each
word string is iterated into its characters: the output degrades to the
seven one-character strings `N`, `e`, `w`, `Y`, `o`, `r`, `k`. -/
theorem words_flattening_eager_char_bug :
    semcorItemsDoc docNY true .word false false false true =
      .ok [.item (.str "New"), .item (.str "York")] ∧
    semcorItemsDoc docNY false .word false false false true =
      .ok [.item (.str "N"), .item (.str "e"), .item (.str "w"), .item (.str "Y"),
        .item (.str "o"), .item (.str "r"), .item (.str "k")] := by
  constructor
  · simp [semcorItemsDoc, semcorViewEntries, pullAll, streamWords, streamWordsElt,
      streamWordsList, docNY, sNY, wfNY, semcorWordItem, leafText, pyStrip, pySpace,
      isLeafTag, XmlElt.tag, XmlElt.children, XmlElt.text, XmlElt.get, XmlElt.attrs,
      XmlElt.hasKey, pySplitUnderscore, pySplitChars, lazyConcat, pyIterEntry, String.mk]
  · simp [semcorItemsDoc, semcorWords, semcorWordsGo, sentEntries, buildSentItems,
      allXmlwordsIn, allXmlwordsInChildren, findallS, findallSList, docNY, sNY, wfNY,
      semcorWordItem, leafText, pyStrip, pySpace, isLeafTag, XmlElt.tag, XmlElt.children,
      XmlElt.text, XmlElt.get, XmlElt.attrs, XmlElt.hasKey, itemAsList, pySplitUnderscore,
      pySplitChars, lazyConcat, pyIterEntry, String.mk]

/-! ## The eager/lazy equivalence on flat-sentence documents -/

/-- A child of a sentence that is a leaf with no element children. -/
def flatChild (c : XmlElt) : Bool :=
  isLeafTag c.tag && c.children.isEmpty

mutual

/-- Every sentence element in the subtree has only childless leaf
children. -/
def flatElt : XmlElt → Bool
  | .mk tag _ _ children =>
    if tag = "s" then children.all flatChild else flatList children

def flatList : List XmlElt → Bool
  | [] => true
  | c :: cs => flatElt c && flatList cs

end

theorem findallS_unfold (e : XmlElt) : findallS e = findallSList e.children := by
  cases e
  simp [findallS, XmlElt.children]

theorem streamSentsElt_unfold (e : XmlElt) : streamSentsElt e = streamSentsList e.children := by
  cases e
  simp [streamSentsElt, XmlElt.children]

theorem streamWordsElt_unfold (e : XmlElt) :
    streamWordsElt e = streamWordsList e.tag e.children := by
  cases e
  simp [streamWordsElt, XmlElt.tag, XmlElt.children]

theorem isLeafTag_ne_s (t : String) (h : isLeafTag t = true) : t ≠ "s" := by
  intro hs
  subst hs
  simp [isLeafTag] at h

theorem flatElt_s_children (c : XmlElt) (hs : c.tag = "s") (h : flatElt c = true) :
    ∀ d ∈ c.children, isLeafTag d.tag = true ∧ d.children = [] := by
  rcases c with ⟨tag, x, a, ch⟩
  simp only [XmlElt.tag] at hs
  simp only [flatElt, if_pos hs, List.all_eq_true] at h
  intro d hd
  have hfc := h d (by simpa [XmlElt.children] using hd)
  simp only [flatChild, Bool.and_eq_true, List.isEmpty_iff] at hfc
  exact hfc

theorem flatList_mem (cs : List XmlElt) (h : flatList cs = true) :
    ∀ c ∈ cs, flatElt c = true := by
  induction cs with
  | nil => simp
  | cons c cs ih =>
    simp only [flatList, Bool.and_eq_true] at h
    intro d hd
    rcases List.mem_cons.mp hd with hd | hd
    · subst hd
      exact h.1
    · exact ih h.2 d hd

theorem findallSList_leaves (cs : List XmlElt)
    (h : ∀ c ∈ cs, isLeafTag c.tag = true ∧ c.children = []) : findallSList cs = [] := by
  induction cs with
  | nil => simp [findallSList]
  | cons c cs ih =>
    obtain ⟨hl, hc⟩ := h c (by simp)
    have hs := isLeafTag_ne_s c.tag hl
    simp only [findallSList, if_neg hs, findallS_unfold, hc]
    simp [findallSList, ih (fun x hx => h x (by simp [hx]))]

theorem streamSentsList_leaves (cs : List XmlElt)
    (h : ∀ c ∈ cs, isLeafTag c.tag = true ∧ c.children = []) : streamSentsList cs = [] := by
  induction cs with
  | nil => simp [streamSentsList]
  | cons c cs ih =>
    obtain ⟨hl, hc⟩ := h c (by simp)
    have hs := isLeafTag_ne_s c.tag hl
    simp only [streamSentsList, if_neg hs, streamSentsElt_unfold, hc]
    simp [streamSentsList, ih (fun x hx => h x (by simp [hx]))]

theorem findallS_of_flat_s (c : XmlElt) (hs : c.tag = "s") (h : flatElt c = true) :
    findallS c = [] := by
  rw [findallS_unfold]
  exact findallSList_leaves c.children (flatElt_s_children c hs h)

theorem streamWordsList_s_leaves (cs : List XmlElt)
    (h : ∀ c ∈ cs, isLeafTag c.tag = true) : streamWordsList "s" cs = cs := by
  induction cs with
  | nil => simp [streamWordsList]
  | cons c cs ih =>
    have hl := h c (by simp)
    simp only [streamWordsList]
    rw [if_pos (by simp [hl]), ih (fun x hx => h x (by simp [hx]))]
    simp

theorem streamWordsList_nonS (p : String) (hp : p ≠ "s") (cs : List XmlElt) :
    streamWordsList p cs = cs.flatMap streamWordsElt := by
  induction cs with
  | nil => simp [streamWordsList]
  | cons c cs ih =>
    simp only [streamWordsList]
    rw [if_neg (by simp [hp]), ih]
    simp

theorem allLeaves_collect (cs : List XmlElt) (h : ∀ c ∈ cs, isLeafTag c.tag = true) :
    allXmlwordsInChildren cs = cs := by
  induction cs with
  | nil => simp [allXmlwordsInChildren]
  | cons c cs ih =>
    have hl := h c (by simp)
    simp only [allXmlwordsInChildren, if_pos hl]
    rw [ih (fun x hx => h x (by simp [hx]))]
    simp

mutual

/-- On flat-sentence subtrees the modelled bracketed stream visits the
same sentence elements as `findall('.//s')`. -/
theorem streamSents_flat_elt : ∀ e : XmlElt, flatElt e = true → streamSentsElt e = findallS e
  | .mk tag x a children, h => by
    by_cases hs : tag = "s"
    · have hleaves := flatElt_s_children (.mk tag x a children) (by simpa [XmlElt.tag] using hs) h
      simp only [XmlElt.children] at hleaves
      rw [streamSentsElt_unfold, findallS_unfold]
      simp only [XmlElt.children]
      rw [streamSentsList_leaves children hleaves, findallSList_leaves children hleaves]
    · simp only [flatElt, if_neg hs] at h
      rw [streamSentsElt_unfold, findallS_unfold]
      simp only [XmlElt.children]
      exact streamSents_flat_list children h

theorem streamSents_flat_list : ∀ cs : List XmlElt, flatList cs = true →
    streamSentsList cs = findallSList cs
  | [], _ => by simp [streamSentsList, findallSList]
  | c :: cs, h => by
    simp only [flatList, Bool.and_eq_true] at h
    obtain ⟨hc, hcs⟩ := h
    by_cases hs : c.tag = "s"
    · simp only [streamSentsList, findallSList, if_pos hs]
      rw [streamSents_flat_list cs hcs, findallS_of_flat_s c hs hc]
      simp
    · simp only [streamSentsList, findallSList, if_neg hs]
      rw [streamSents_flat_elt c hc, streamSents_flat_list cs hcs]
      simp

end

mutual

/-- On flat-sentence subtrees the modelled unbracketed stream yields,
per sentence found by `findall('.//s')`, exactly that sentence's direct
children. -/
theorem streamWords_flat_elt : ∀ e : XmlElt, flatElt e = true →
    streamWordsElt e = (if e.tag = "s" then e.children else (findallS e).flatMap XmlElt.children)
  | .mk tag x a children, h => by
    by_cases hs : tag = "s"
    · have hleaves := flatElt_s_children (.mk tag x a children) (by simpa [XmlElt.tag] using hs) h
      simp only [XmlElt.children] at hleaves
      rw [streamWordsElt_unfold]
      simp only [XmlElt.tag, XmlElt.children, if_pos hs, hs]
      exact streamWordsList_s_leaves children (fun c hcm => (hleaves c hcm).1)
    · simp only [flatElt, if_neg hs] at h
      rw [streamWordsElt_unfold]
      simp only [XmlElt.tag, XmlElt.children, if_neg hs]
      rw [streamWordsList_nonS tag hs children, findallS_unfold]
      simp only [XmlElt.children]
      exact streamWords_flat_list children h

theorem streamWords_flat_list : ∀ cs : List XmlElt, flatList cs = true →
    cs.flatMap streamWordsElt = (findallSList cs).flatMap XmlElt.children
  | [], _ => by simp [findallSList]
  | c :: cs, h => by
    simp only [flatList, Bool.and_eq_true] at h
    obtain ⟨hc, hcs⟩ := h
    by_cases hs : c.tag = "s"
    · simp only [List.flatMap_cons, findallSList, if_pos hs]
      rw [streamWords_flat_elt c hc, if_pos hs, streamWords_flat_list cs hcs,
        findallS_of_flat_s c hs hc]
      simp
    · simp only [List.flatMap_cons, findallSList, if_neg hs]
      rw [streamWords_flat_elt c hc, if_neg hs, streamWords_flat_list cs hcs]
      simp

end

mutual

/-- Every sentence found by `findall('.//s')` in a flat subtree has only
childless leaf children. -/
theorem findall_flat_elt : ∀ e : XmlElt, flatElt e = true → ∀ s ∈ findallS e,
    ∀ c ∈ s.children, isLeafTag c.tag = true ∧ c.children = []
  | .mk tag x a children, h => by
    by_cases hs : tag = "s"
    · rw [findallS_of_flat_s (.mk tag x a children) (by simpa [XmlElt.tag] using hs) h]
      simp
    · simp only [flatElt, if_neg hs] at h
      rw [findallS_unfold]
      simp only [XmlElt.children]
      exact findall_flat_list children h

theorem findall_flat_list : ∀ cs : List XmlElt, flatList cs = true → ∀ s ∈ findallSList cs,
    ∀ c ∈ s.children, isLeafTag c.tag = true ∧ c.children = []
  | [], _ => by simp [findallSList]
  | c :: cs, h => by
    simp only [flatList, Bool.and_eq_true] at h
    obtain ⟨hc, hcs⟩ := h
    intro s hsm
    simp only [findallSList, List.mem_append] at hsm
    rcases hsm with (hsm | hsm) | hsm
    · by_cases hs : c.tag = "s"
      · rw [if_pos hs] at hsm
        simp only [List.mem_singleton] at hsm
        subst hsm
        exact flatElt_s_children s hs hc
      · rw [if_neg hs] at hsm
        simp at hsm
    · exact findall_flat_elt c hc s hsm
    · exact findall_flat_list cs hcs s hsm

end

/-- On an all-leaf child list the lazy sentence child loop and the eager
per-sentence build agree (the lazy tag check always passes). -/
theorem handle_eq_build (cs : List XmlElt) (u : SemcorUnit) (p m st : Bool)
    (h : ∀ c ∈ cs, isLeafTag c.tag = true) :
    handleSentChildren cs u p m st = buildSentItems cs u p m st := by
  induction cs with
  | nil => simp [handleSentChildren, buildSentItems]
  | cons c cs ih =>
    have hc := h c (by simp)
    have ih' := ih (fun x hx => h x (by simp [hx]))
    rcases hw : semcorWordItem c u p m st with e | itm <;>
      simp only [handleSentChildren, buildSentItems, if_pos hc, hw, ih']

/-- Pulling a concatenated stream splits as the two pulls in order. -/
theorem pullAll_append {α β : Type} (f : α → Except PyErr β) (xs ys : List α) :
    pullAll f (xs ++ ys) =
      match pullAll f xs with
      | .error e => .error e
      | .ok l1 =>
        match pullAll f ys with
        | .error e => .error e
        | .ok l2 => .ok (l1 ++ l2) := by
  induction xs with
  | nil =>
    simp only [List.nil_append, pullAll]
    rcases pullAll f ys with e | l <;> simp
  | cons x xs ih =>
    simp only [List.cons_append, pullAll]
    rcases hx : f x with e | y <;> simp only [hx]
    rw [show xs.append ys = xs ++ ys from rfl, ih]
    rcases h1 : pullAll f xs with e | l1 <;> simp only [h1]
    rcases h2 : pullAll f ys with e | l2 <;> simp

/-- At non-word granularity, pulling leaves one at a time through the
item builder agrees with the eager per-sentence build followed by
entry wrapping. -/
theorem pullWord_eq_build (cs : List XmlElt) (u : SemcorUnit) (p m st : Bool)
    (hu : u ≠ .word) :
    pullAll (fun w =>
      match semcorWordItem w u p m st with
      | .error e => .error e
      | .ok itm => .ok (Entry.item itm)) cs =
      match buildSentItems cs u p m st with
      | .error e => .error e
      | .ok its => .ok (its.map Entry.item) := by
  induction cs with
  | nil => simp [pullAll, buildSentItems]
  | cons c cs ih =>
    rcases hw : semcorWordItem c u p m st with e | itm <;>
      simp only [pullAll, buildSentItems, hw]
    rw [ih]
    rcases hb : buildSentItems cs u p m st with e | tail <;> simp only []
    rw [if_neg hu]
    simp

/-- Lazy bracketed pulls agree with the eager sentence loop on
flat sentences. -/
theorem pull_sents_eq_go (sents : List XmlElt) (u : SemcorUnit) (p m st : Bool)
    (hf : ∀ s ∈ sents, ∀ c ∈ s.children, isLeafTag c.tag = true ∧ c.children = []) :
    pullAll (fun s => handleSent s u p m st) sents = semcorWordsGo sents u true p m st := by
  induction sents with
  | nil => simp [pullAll, semcorWordsGo]
  | cons s rest ih =>
    have hsf := hf s (by simp)
    have hleaf : ∀ c ∈ s.children, isLeafTag c.tag = true := fun c hc => (hsf c hc).1
    have hax : allXmlwordsIn s = s.children := by
      rw [allXmlwordsIn_eq]
      exact allLeaves_collect _ hleaf
    have hhb : handleSentChildren s.children u p m st =
        buildSentItems (allXmlwordsIn s) u p m st := by
      rw [hax]
      exact handle_eq_build _ u p m st hleaf
    have ih' := ih (fun x hx => hf x (by simp [hx]))
    have hhs : handleSent s u p m st =
        (match buildSentItems (allXmlwordsIn s) u p m st with
        | .error e => .error e
        | .ok sent =>
          match s.attribGet "snum" with
          | .error e => .error e
          | .ok num => .ok (Entry.sent num sent)) := by
      simp only [handleSent, hhb]
    simp only [pullAll, semcorWordsGo, hhs]
    rcases hb : buildSentItems (allXmlwordsIn s) u p m st with e | sent <;> simp only [hb]
    simp only [sentEntries]
    rcases ha : s.attribGet "snum" with e | num <;> simp only [ha]
    rw [ih']
    rcases hr : semcorWordsGo rest u true p m st with e | tail <;> simp only [hr]
    simp

/-- Lazy unbracketed pulls over the flattened leaf stream agree with
the eager sentence loop on flat sentences, at non-word granularity. -/
theorem pull_words_eq_go (sents : List XmlElt) (u : SemcorUnit) (p m st : Bool)
    (hu : u ≠ .word)
    (hf : ∀ s ∈ sents, ∀ c ∈ s.children, isLeafTag c.tag = true ∧ c.children = []) :
    pullAll (fun w =>
      match semcorWordItem w u p m st with
      | .error e => .error e
      | .ok itm => .ok (Entry.item itm)) (sents.flatMap XmlElt.children) =
      semcorWordsGo sents u false p m st := by
  induction sents with
  | nil => simp [pullAll, semcorWordsGo]
  | cons s rest ih =>
    have hsf := hf s (by simp)
    have hleaf : ∀ c ∈ s.children, isLeafTag c.tag = true := fun c hc => (hsf c hc).1
    have hax : allXmlwordsIn s = s.children := by
      rw [allXmlwordsIn_eq]
      exact allLeaves_collect _ hleaf
    have ih' := ih (fun x hx => hf x (by simp [hx]))
    simp only [List.flatMap_cons, pullAll_append, pullWord_eq_build s.children u p m st hu, ih']
    simp only [semcorWordsGo, hax, sentEntries]
    rcases hb : buildSentItems s.children u p m st with e | sent <;> simp only []
    rcases hr : semcorWordsGo rest u false p m st with e | tail <;> simp

/-- C1 (amended: over documents whose sentence elements have only
childless leaf children, and excluding word granularity without
bracketing).  Under these conditions the lazy streaming view and the
eager materializer produce identical output sequences — same items,
shapes, labels and order, and the same error when one is raised. -/
theorem eager_lazy_equiv_flat (doc : XmlElt) (u : SemcorUnit) (b p m st : Bool)
    (hflat : flatList doc.children = true)
    (hmode : u ≠ .word ∨ b = true) :
    semcorViewEntries doc u b p m st = semcorWords doc u b p m st := by
  cases b
  case true =>
    have hss : streamSents doc = findallS doc := by
      rw [streamSents, findallS_unfold]
      exact streamSents_flat_list doc.children hflat
    have hfm : ∀ s ∈ findallS doc, ∀ c ∈ s.children, isLeafTag c.tag = true ∧ c.children = [] := by
      rw [findallS_unfold]
      exact findall_flat_list doc.children hflat
    simp only [semcorViewEntries, if_pos rfl, hss, semcorWords]
    exact pull_sents_eq_go (findallS doc) u p m st hfm
  case false =>
    have hu : u ≠ .word := by
      rcases hmode with hmode | hmode
      · exact hmode
      · simp at hmode
    have hsw : streamWords doc = (findallS doc).flatMap XmlElt.children := by
      rw [streamWords, findallS_unfold]
      exact streamWords_flat_list doc.children hflat
    have hfm : ∀ s ∈ findallS doc, ∀ c ∈ s.children, isLeafTag c.tag = true ∧ c.children = [] := by
      rw [findallS_unfold]
      exact findall_flat_list doc.children hflat
    simp only [semcorViewEntries, if_neg (by simp : ¬(false = true)), hsw, semcorWords]
    exact pull_words_eq_go (findallS doc) u p m st hu hfm

/-- Witness for C1: the equivalence at the flat `New_York` document,
chunk granularity, unbracketed. -/
theorem eager_lazy_equiv_flat_witness :
    semcorViewEntries docNY .chunk false false false true =
      semcorWords docNY .chunk false false false true := by
  refine eager_lazy_equiv_flat docNY .chunk false false false true ?_ (Or.inl (by decide))
  simp [docNY, sNY, wfNY, flatList, flatElt, flatChild, isLeafTag, XmlElt.tag, XmlElt.children]

/-- Counterexample for C1 as stated: at word granularity without
bracketing the lazy view yields one sub-word list per leaf while the
eager materializer yields the already-spliced flat word strings, so the
sequences differ in shape even on a flat document; and on a document
whose sentence has a nested non-leaf child the eager materializer
descends and succeeds while the lazy bracketed view raises the
structural error. -/
theorem eager_lazy_divergence :
    (semcorViewEntries docNY .word false false false true ≠
      semcorWords docNY .word false false false true) ∧
    semcorWords docNested .chunk true false false true =
      .ok [.sent "2" [.strs ["Hello"]]] ∧
    semcorViewEntries docNested .chunk true false false true =
      .error (.valueError "Unexpected element ne") := by
  refine ⟨?_, ?_, ?_⟩
  · have h1 : semcorViewEntries docNY .word false false false true =
        .ok [.item (.strs ["New", "York"])] := by
      simp [semcorViewEntries, pullAll, streamWords, streamWordsElt, streamWordsList, docNY,
        sNY, wfNY, semcorWordItem, leafText, pyStrip, pySpace, isLeafTag, XmlElt.tag,
        XmlElt.children, XmlElt.text, XmlElt.get, XmlElt.attrs, XmlElt.hasKey,
        pySplitUnderscore, pySplitChars]
    have h2 : semcorWords docNY .word false false false true =
        .ok [.item (.str "New"), .item (.str "York")] := by
      simp [semcorWords, semcorWordsGo, sentEntries, buildSentItems, allXmlwordsIn,
        allXmlwordsInChildren, findallS, findallSList, docNY, sNY, wfNY, semcorWordItem,
        leafText, pyStrip, pySpace, isLeafTag, XmlElt.tag, XmlElt.children, XmlElt.text,
        XmlElt.get, XmlElt.attrs, XmlElt.hasKey, itemAsList, pySplitUnderscore, pySplitChars]
    rw [h1, h2]
    intro hcontra
    simp at hcontra
  · simp [semcorWords, semcorWordsGo, sentEntries, buildSentItems, allXmlwordsIn,
      allXmlwordsInChildren, findallS, findallSList, docNested, neChild, semcorWordItem,
      leafText, pyStrip, pySpace, isLeafTag, XmlElt.tag, XmlElt.children, XmlElt.text,
      XmlElt.get, XmlElt.attrs, XmlElt.hasKey, itemAsList, pySplitUnderscore, pySplitChars,
      XmlElt.attribGet]
  · simp [semcorViewEntries, pullAll, streamSents, streamSentsElt, streamSentsList,
      docNested, neChild, handleSent, handleSentChildren, semcorWordItem, leafText, pyStrip,
      pySpace, isLeafTag, XmlElt.tag, XmlElt.children, XmlElt.text, XmlElt.get, XmlElt.attrs,
      XmlElt.hasKey, XmlElt.attribGet]

end Semcor
